import Mathlib

/-!
Verification of the maze-dataset core of `generate_simple_mazes.py`.

The embedding models the maze data read by `compute_shortest_path`
(entry/exit coordinates, grid of cells with four wall flags), the
breadth-first shortest-path search, the perturbation logic of
`build_incorrect_paths`, and the wall-fingerprint deduplication step of
`run_generation`.  Randomness (`random.randrange`, `random.choice`) is
modelled by explicit choice parameters: the Python call draws an index
uniformly below a list length, which we model as `choice % length` for an
arbitrary natural `choice`, so quantifying over the choice parameter covers
every possible draw.
-/

/-- A grid coordinate `(row, col)`. -/
abbrev Coor := Nat × Nat

/-- The four wall flags of `cell.walls` (`true` = wall present). -/
structure Cell where
  top : Bool
  right : Bool
  bottom : Bool
  left : Bool
deriving DecidableEq, Repr

/-- Out-of-bounds accesses do not occur in the source (Python would raise);
the default cell is fully walled so it adds no adjacency. -/
instance : Inhabited Cell := ⟨⟨true, true, true, true⟩⟩

/-- The fields of the maze object that `compute_shortest_path` and
`run_generation` read: `maze.num_rows`, `maze.num_cols`, `maze.grid`,
`maze.entry_coor`, `maze.exit_coor`, `maze.generation_path`. -/
structure Maze where
  num_rows : Nat
  num_cols : Nat
  grid : List (List Cell)
  entry_coor : Coor
  exit_coor : Coor
  generation_path : List Coor
deriving DecidableEq, Repr

/-- `maze.grid[r][c]`. -/
def Maze.cellAt (m : Maze) (r c : Nat) : Cell := (m.grid.getD r []).getD c default

/-- The nested `get_neighbors(r, c)` of `compute_shortest_path`: the
neighbours reachable through an absent wall, in source order
top, right, bottom, left, with the source's bounds guards. -/
def get_neighbors (m : Maze) (r c : Nat) : List Coor :=
  let cell := m.cellAt r c
  (if cell.top = false ∧ 0 < r then [(r - 1, c)] else []) ++
  (if cell.right = false ∧ c < m.num_cols - 1 then [(r, c + 1)] else []) ++
  (if cell.bottom = false ∧ r < m.num_rows - 1 then [(r + 1, c)] else []) ++
  (if cell.left = false ∧ 0 < c then [(r, c - 1)] else [])

/-- The `parents` dict of the BFS, as an insertion-ordered association list
(keys are unique; a binding `(x, some y)` means `parents[x] = y`, while
`(x, none)` is the initial `parents[start] = None`). -/
abbrev Parents := List (Coor × Option Coor)

/-- Dictionary lookup `parents[k]` / membership test `k in parents`. -/
def lookupParent : Parents → Coor → Option (Option Coor)
  | [], _ => none
  | e :: rest, k => if e.1 = k then some e.2 else lookupParent rest k

/-- One BFS expansion: the `for neighbor in get_neighbors(*current)` loop,
threading the queue (append right) and the parents dict. -/
def bfsVisit (m : Maze) (current : Coor) (qp : List Coor × Parents) :
    List Coor × Parents :=
  (get_neighbors m current.1 current.2).foldl
    (fun acc nb =>
      if (lookupParent acc.2 nb).isSome then acc
      else (acc.1 ++ [nb], acc.2 ++ [(nb, some current)]))
    qp

/-- The `while queue:` loop: pop left, stop when the goal is dequeued,
otherwise expand.  The loop always terminates in Python; the fuel is an
upper bound on the number of iterations, proved sufficient below. -/
def bfsLoop (m : Maze) : Nat → List Coor → Parents → Parents
  | 0, _, parents => parents
  | _ + 1, [], parents => parents
  | fuel + 1, current :: rest, parents =>
    if current = m.exit_coor then parents
    else
      let qp := bfsVisit m current (rest, parents)
      bfsLoop m fuel qp.1 qp.2

/-- The parents dict at the end of the BFS of `compute_shortest_path`,
starting from `queue = deque([start])`, `parents = {start: None}`. -/
def bfs_parents (m : Maze) : Parents :=
  bfsLoop m (2 * (m.num_rows * m.num_cols) + 2) [m.entry_coor]
    [(m.entry_coor, none)]

/-- The reconstruction loop `while node is not None: path.append(node);
node = parents[node]`, producing the goal-to-start chain.  The fuel bounds
the chain length; `parents.length` is proved sufficient below. -/
def backtrackPath (p : Parents) : Nat → Coor → List Coor
  | 0, node => [node]
  | fuel + 1, node =>
    match lookupParent p node with
    | some (some next) => node :: backtrackPath p fuel next
    | _ => [node]

/-- The reconstructed entry-to-exit path (`path.reverse()` in the source). -/
def found_path (m : Maze) : List Coor :=
  (backtrackPath (bfs_parents m) (bfs_parents m).length m.exit_coor).reverse

/-- The `direction_map` dict keyed by the coordinate delta `(dr, dc)`.
Any delta outside the four keys raises `KeyError` in Python and cannot occur
for 4-neighbour moves; the sentinel `("", 4)` keeps the function total. -/
def direction_map (d : Int × Int) : String × Nat :=
  if d = (-1, 0) then ("down", 0)
  else if d = (1, 0) then ("up", 1)
  else if d = (0, -1) then ("left", 2)
  else if d = (0, 1) then ("right", 3)
  else ("", 4)

/-- The label/code pairs of the `for (r1, c1), (r2, c2) in zip(path, path[1:])`
loop. -/
def dirPairs (path : List Coor) : List (String × Nat) :=
  (path.zip path.tail).map (fun ab =>
    direction_map ((ab.2.1 : Int) - (ab.1.1 : Int), (ab.2.2 : Int) - (ab.1.2 : Int)))

/-- `list(coord)`: a coordinate serialized as a two-element list. -/
def coordOut (x : Coor) : List Nat := [x.1, x.2]

/-- The dict returned by `compute_shortest_path`. -/
structure PathResult where
  coordinates : List (List Nat)
  directions : List String
  directions_numeric : List Nat
deriving DecidableEq, Repr

/-- `compute_shortest_path(maze)`: BFS from the entry; if the exit was never
reached return the empty result, otherwise reconstruct and label the path. -/
def compute_shortest_path (m : Maze) : PathResult :=
  if lookupParent (bfs_parents m) m.exit_coor = none then ⟨[], [], []⟩
  else
    ⟨(found_path m).map coordOut,
     (dirPairs (found_path m)).map Prod.fst,
     (dirPairs (found_path m)).map Prod.snd⟩

/-- The default `direction_labels=("up", "down", "left", "right")`. -/
def fourLabels : List String := ["up", "down", "left", "right"]

/-- The `dir_to_numeric` dict; the sentinel `4` stands for the `KeyError`
Python would raise on a label outside the dict, which cannot occur with the
default label vocabulary. -/
def dir_to_numeric (d : String) : Nat :=
  if d = "up" then 1
  else if d = "down" then 0
  else if d = "left" then 2
  else if d = "right" then 3
  else 4

/-- The `incorrect_paths["substitution"]` record. -/
structure SubstitutionVariant where
  modified_index : Nat
  original_direction : String
  new_direction : String
  directions : List String
  directions_numeric : List Nat
deriving DecidableEq, Repr

/-- The `incorrect_paths["addition"]` record. -/
structure AdditionVariant where
  added_direction : String
  directions : List String
  directions_numeric : List Nat
deriving DecidableEq, Repr

/-- The `incorrect_paths["subtraction"]` record. -/
structure SubtractionVariant where
  removed_direction : String
  directions : List String
  directions_numeric : List Nat
deriving DecidableEq, Repr

/-- The dict returned by `build_incorrect_paths` (`None` = absent variant). -/
structure IncorrectPaths where
  substitution : Option SubstitutionVariant
  addition : Option AdditionVariant
  subtraction : Option SubtractionVariant
deriving DecidableEq, Repr

/-- `build_incorrect_paths` with the state of the input dict's fields made
explicit: the second component is the value of
`(coordinates, directions, directions_numeric)` of `shortest_path` after the
call (the source mutates only copies, so it reconstructs from the variables
it read).  `idxChoice`, `subChoice`, `addChoice` model the three random
draws. -/
def build_incorrect_paths_st (shortest_path : PathResult)
    (idxChoice subChoice addChoice : Nat)
    (direction_labels : List String := fourLabels) :
    IncorrectPaths × PathResult :=
  let directions := shortest_path.directions
  let numeric := shortest_path.directions_numeric
  let coords := shortest_path.coordinates
  if directions = [] then
    (⟨none, none, none⟩, ⟨coords, directions, numeric⟩)
  else
    let idx := idxChoice % directions.length
    let current_dir := directions.getD idx ""
    let alternatives := direction_labels.filter (fun d => decide (d ≠ current_dir))
    let new_dir := alternatives.getD (subChoice % alternatives.length) ""
    let new_dirs := directions.set idx new_dir
    let new_numeric := numeric.set idx (dir_to_numeric new_dir)
    let add_dir := direction_labels.getD (addChoice % direction_labels.length) ""
    let subtraction : Option SubtractionVariant :=
      if 1 < directions.length then
        some ⟨directions.getLastD "", directions.dropLast, numeric.dropLast⟩
      else none
    (⟨some ⟨idx, current_dir, new_dir, new_dirs, new_numeric⟩,
      some ⟨add_dir, directions ++ [add_dir], numeric ++ [dir_to_numeric add_dir]⟩,
      subtraction⟩,
     ⟨coords, directions, numeric⟩)

/-- `build_incorrect_paths(shortest_path)`, the returned dict. -/
def build_incorrect_paths (shortest_path : PathResult)
    (idxChoice subChoice addChoice : Nat)
    (direction_labels : List String := fourLabels) : IncorrectPaths :=
  (build_incorrect_paths_st shortest_path idxChoice subChoice addChoice
    direction_labels).1

/-- The type of the `hash_key` fingerprint of `run_generation`. -/
abbrev Fingerprint := List (List (String × Bool))

/-- The `hash_key` of `run_generation`: for every cell in row-major order
(`for row in maze.grid for cell in row`), the four `(side, flag)` pairs in
the order top, right, bottom, left. -/
def hash_key (m : Maze) : Fingerprint :=
  m.grid.flatten.map (fun cell =>
    [("top", cell.top), ("right", cell.right), ("bottom", cell.bottom),
     ("left", cell.left)])

/-- The deduplication step of `run_generation` around `seen_hashes`:
`if hash_key in seen_hashes: continue` / `seen_hashes.add(hash_key)`.
Returns whether the maze is new together with the updated seen set. -/
def dedupStep (seen_hashes : List Fingerprint) (m : Maze) :
    Bool × List Fingerprint :=
  if hash_key m ∈ seen_hashes then (false, seen_hashes)
  else (true, hash_key m :: seen_hashes)

/-- One step of open-wall adjacency as the BFS explores it: `y` is listed
among the open-wall neighbours of `x`. -/
def adjOpen (m : Maze) (x y : Coor) : Prop := y ∈ get_neighbors m x.1 x.2

instance (m : Maze) (x y : Coor) : Decidable (adjOpen m x y) := by
  unfold adjOpen; infer_instance

/-- Reachability through open walls. -/
def Reachable (m : Maze) (x y : Coor) : Prop :=
  Relation.ReflTransGen (adjOpen m) x y

/-- The coordinate names a cell of the grid. -/
abbrev InBounds (m : Maze) (x : Coor) : Prop :=
  x.1 < m.num_rows ∧ x.2 < m.num_cols

/-- A simple path through open walls from `a` to `b`: starts at `a`, ends at
`b`, repeats no coordinate, and every consecutive pair is adjacent through an
open wall. -/
def IsSimpleOpenPath (m : Maze) (p : List Coor) (a b : Coor) : Prop :=
  p.head? = some a ∧ p.getLast? = some b ∧ p.Nodup ∧ List.Chain' (adjOpen m) p

/-- Modelled from the spec: the maze-carving generator is not part of the
analysed sources, so a *perfect maze* is taken by its glossary definition —
the open-wall graph is a spanning tree, i.e. there is exactly one simple
path between any two cells. -/
def IsPerfect (m : Maze) : Prop :=
  ∀ a b : Coor, InBounds m a → InBounds m b →
    ∃! p : List Coor, IsSimpleOpenPath m p a b

/-- Modelled from the spec: wall symmetry — a cell's wall facing a neighbour
is present exactly when the neighbour's wall facing back is present. -/
def WallSym (m : Maze) : Prop :=
  ∀ r, r < m.num_rows → ∀ c, c < m.num_cols →
    (r + 1 < m.num_rows → (m.cellAt r c).bottom = (m.cellAt (r + 1) c).top) ∧
    (c + 1 < m.num_cols → (m.cellAt r c).right = (m.cellAt r (c + 1)).left)

instance (m : Maze) : Decidable (WallSym m) := by
  unfold WallSym; infer_instance

/-! ### Lookup lemmas for the parents association list -/

/-- The keys of the parents dict, in insertion order. -/
def parentKeys (p : Parents) : List Coor := p.map Prod.fst

theorem lookupParent_eq_none {p : Parents} {k : Coor} :
    lookupParent p k = none ↔ k ∉ parentKeys p := by
  induction p with
  | nil => simp [lookupParent, parentKeys]
  | cons e rest ih =>
    by_cases h : e.1 = k
    · simp [lookupParent, h, parentKeys]
    · simp only [lookupParent, if_neg h, parentKeys, List.map_cons,
        List.mem_cons, not_or]
      rw [ih]
      exact ⟨fun hn => ⟨fun hk => h hk.symm, hn⟩, fun hn => hn.2⟩

theorem lookupParent_isSome {p : Parents} {k : Coor} :
    (lookupParent p k).isSome = true ↔ k ∈ parentKeys p := by
  rw [Option.isSome_iff_ne_none]
  exact not_iff_not.mpr lookupParent_eq_none |>.trans not_not

theorem lookupParent_of_getElem :
    ∀ {p : Parents}, (parentKeys p).Nodup →
      ∀ {i : Nat} {e : Coor × Option Coor}, p[i]? = some e →
        lookupParent p e.1 = some e.2 := by
  intro p
  induction p with
  | nil => intro _ i e h; simp at h
  | cons f rest ih =>
    intro hnd i e h
    rw [parentKeys, List.map_cons, List.nodup_cons] at hnd
    cases i with
    | zero =>
      simp only [List.getElem?_cons_zero, Option.some.injEq] at h
      subst h
      simp [lookupParent]
    | succ j =>
      simp only [List.getElem?_cons_succ] at h
      have hmem : e.1 ∈ parentKeys rest :=
        List.mem_map.mpr ⟨e, List.mem_iff_getElem?.mpr ⟨j, h⟩, rfl⟩
      have hne : f.1 ≠ e.1 := fun hcontra => hnd.1 (hcontra ▸ hmem)
      rw [lookupParent, if_neg hne]
      exact ih hnd.2 h

theorem mem_parentKeys_getElem {p : Parents} {k : Coor}
    (h : k ∈ parentKeys p) :
    ∃ (i : Nat) (e : Coor × Option Coor), p[i]? = some e ∧ e.1 = k := by
  obtain ⟨e, he, hk⟩ := List.mem_map.mp h
  obtain ⟨i, hi⟩ := List.mem_iff_getElem?.mp he
  exact ⟨i, e, hi, hk⟩

/-! ### Structure of one BFS expansion -/

/-- The fold of `bfsVisit` over an arbitrary neighbour list. -/
def visitFold (current : Coor) (ns : List Coor) (qp : List Coor × Parents) :
    List Coor × Parents :=
  ns.foldl
    (fun acc nb =>
      if (lookupParent acc.2 nb).isSome then acc
      else (acc.1 ++ [nb], acc.2 ++ [(nb, some current)]))
    qp

theorem bfsVisit_eq_visitFold (m : Maze) (current : Coor)
    (qp : List Coor × Parents) :
    bfsVisit m current qp =
      visitFold current (get_neighbors m current.1 current.2) qp := rfl

theorem visitFold_structure (current : Coor) :
    ∀ (ns q : List Coor) (p : Parents),
      ∃ extra : Parents,
        visitFold current ns (q, p) = (q ++ extra.map Prod.fst, p ++ extra) ∧
        ∀ e ∈ extra, e.2 = some current ∧ e.1 ∈ ns := by
  intro ns
  induction ns with
  | nil => exact fun q p => ⟨[], by simp [visitFold], by simp⟩
  | cons nb ns ih =>
    intro q p
    by_cases h : (lookupParent p nb).isSome
    · obtain ⟨extra, heq, hprop⟩ := ih q p
      refine ⟨extra, ?_,
        fun e he => ⟨(hprop e he).1, List.mem_cons_of_mem _ (hprop e he).2⟩⟩
      simpa [visitFold, h] using heq
    · obtain ⟨extra, heq, hprop⟩ := ih (q ++ [nb]) (p ++ [(nb, some current)])
      refine ⟨(nb, some current) :: extra, ?_, ?_⟩
      · simp only [visitFold, List.foldl_cons, if_neg h] at heq ⊢
        rw [heq]
        simp
      · intro e he
        rcases List.mem_cons.mp he with rfl | he'
        · exact ⟨rfl, List.mem_cons_self _ _⟩
        · exact ⟨(hprop e he').1, List.mem_cons_of_mem _ (hprop e he').2⟩

theorem visitFold_nodup (current : Coor) :
    ∀ (ns q : List Coor) (p : Parents), (parentKeys p).Nodup →
      (parentKeys (visitFold current ns (q, p)).2).Nodup := by
  intro ns
  induction ns with
  | nil => intro q p h; simpa [visitFold] using h
  | cons nb ns ih =>
    intro q p h
    by_cases hmem : (lookupParent p nb).isSome
    · simpa [visitFold, hmem] using ih q p h
    · have hnotin : nb ∉ parentKeys p :=
        lookupParent_eq_none.mp (Option.not_isSome_iff_eq_none.mp hmem)
      have hnd : (parentKeys (p ++ [(nb, some current)])).Nodup := by
        simp only [parentKeys, List.map_append, List.map_cons, List.map_nil]
        rw [List.nodup_append]
        refine ⟨h, List.nodup_singleton _, fun a ha hb => ?_⟩
        simp only [List.mem_singleton] at hb
        exact hnotin (hb ▸ ha)
      simpa [visitFold, hmem] using ih (q ++ [nb]) (p ++ [(nb, some current)]) hnd

theorem visitFold_visits (current : Coor) :
    ∀ (ns q : List Coor) (p : Parents), ∀ nb ∈ ns,
      nb ∈ parentKeys (visitFold current ns (q, p)).2 := by
  intro ns
  induction ns with
  | nil => simp
  | cons nb0 ns ih =>
    intro q p nb hnb
    by_cases hmem : (lookupParent p nb0).isSome
    · have hstep : visitFold current (nb0 :: ns) (q, p) =
          visitFold current ns (q, p) := by
        simp [visitFold, hmem]
      rcases List.mem_cons.mp hnb with rfl | hnb'
      · have h0 : nb ∈ parentKeys p := lookupParent_isSome.mp hmem
        obtain ⟨extra, heq, -⟩ := visitFold_structure current ns q p
        rw [hstep, heq]
        simp only [parentKeys, List.map_append]
        exact List.mem_append_left _ h0
      · rw [hstep]
        exact ih q p nb hnb'
    · have hstep : visitFold current (nb0 :: ns) (q, p) =
          visitFold current ns (q ++ [nb0], p ++ [(nb0, some current)]) := by
        simp [visitFold, hmem]
      rcases List.mem_cons.mp hnb with rfl | hnb'
      · obtain ⟨extra, heq, -⟩ :=
          visitFold_structure current ns (q ++ [nb]) (p ++ [(nb, some current)])
        rw [hstep, heq]
        simp [parentKeys]
      · rw [hstep]
        exact ih (q ++ [nb0]) (p ++ [(nb0, some current)]) nb hnb'

/-! ### Invariants of the BFS parents dict -/

theorem mem_ite_nil {α : Type} {c : Prop} [Decidable c] {l : List α} {a : α} :
    (a ∈ if c then l else []) ↔ c ∧ a ∈ l := by
  by_cases h : c <;> simp [h]

/-- Membership characterization of one cell's open-wall neighbour list. -/
theorem mem_get_neighbors {m : Maze} {r c : Nat} {y : Coor} :
    y ∈ get_neighbors m r c ↔
      ((m.cellAt r c).top = false ∧ 0 < r ∧ y = (r - 1, c)) ∨
      ((m.cellAt r c).right = false ∧ c < m.num_cols - 1 ∧ y = (r, c + 1)) ∨
      ((m.cellAt r c).bottom = false ∧ r < m.num_rows - 1 ∧ y = (r + 1, c)) ∨
      ((m.cellAt r c).left = false ∧ 0 < c ∧ y = (r, c - 1)) := by
  simp only [get_neighbors, List.mem_append, mem_ite_nil, List.mem_singleton,
    and_assoc, or_assoc]

/-- The bounds guards keep every listed neighbour of an in-bounds cell
in bounds. -/
theorem get_neighbors_inBounds {m : Maze} {x : Coor} (hx : InBounds m x) :
    ∀ y ∈ get_neighbors m x.1 x.2, InBounds m y := by
  intro y hy
  obtain ⟨hr, hc⟩ := hx
  rw [mem_get_neighbors] at hy
  rcases hy with ⟨-, h, rfl⟩ | ⟨-, h, rfl⟩ | ⟨-, h, rfl⟩ | ⟨-, h, rfl⟩ <;>
    exact ⟨by omega, by omega⟩

/-- A listed neighbour sits at one of the four unit deltas from its cell. -/
theorem adjOpen_delta {m : Maze} {a b : Coor} (h : adjOpen m a b) :
    ((b.1 : Int) - (a.1 : Int), (b.2 : Int) - (a.2 : Int)) = (-1, 0) ∨
    ((b.1 : Int) - (a.1 : Int), (b.2 : Int) - (a.2 : Int)) = (1, 0) ∨
    ((b.1 : Int) - (a.1 : Int), (b.2 : Int) - (a.2 : Int)) = (0, -1) ∨
    ((b.1 : Int) - (a.1 : Int), (b.2 : Int) - (a.2 : Int)) = (0, 1) := by
  unfold adjOpen at h
  rw [mem_get_neighbors] at h
  rcases h with ⟨-, h, rfl⟩ | ⟨-, h, rfl⟩ | ⟨-, h, rfl⟩ | ⟨-, h, rfl⟩
  · refine Or.inl ?_
    simp only [Prod.mk.injEq]
    omega
  · refine Or.inr (Or.inr (Or.inr ?_))
    simp only [Prod.mk.injEq]
    omega
  · refine Or.inr (Or.inl ?_)
    simp only [Prod.mk.injEq]
    omega
  · refine Or.inr (Or.inr (Or.inl ?_))
    simp only [Prod.mk.injEq]
    omega

/-- Well-formedness of the parents dict: unique keys, the start bound first
with no parent, and every binding with a parent recorded strictly earlier,
with the key listed among that parent's open neighbours. -/
structure ParentsWF (m : Maze) (start : Coor) (p : Parents) : Prop where
  nodup : (parentKeys p).Nodup
  head : p.head? = some (start, none)
  root : ∀ e ∈ p, e.2 = none → e.1 = start
  prev : ∀ (i : Nat) (e : Coor × Option Coor), p[i]? = some e →
    ∀ y, e.2 = some y →
      ∃ (j : Nat) (f : Coor × Option Coor), j < i ∧ p[j]? = some f ∧
        f.1 = y ∧ e.1 ∈ get_neighbors m y.1 y.2

theorem ParentsWF.visit {m : Maze} {start current : Coor} {q : List Coor}
    {p : Parents} (hwf : ParentsWF m start p)
    (hcur : current ∈ parentKeys p) :
    ParentsWF m start (bfsVisit m current (q, p)).2 := by
  obtain ⟨extra, heq, hextra⟩ :=
    visitFold_structure current (get_neighbors m current.1 current.2) q p
  have hnodup :=
    visitFold_nodup current (get_neighbors m current.1 current.2) q p hwf.nodup
  rw [bfsVisit_eq_visitFold, heq]
  rw [heq] at hnodup
  refine ⟨hnodup, ?_, ?_, ?_⟩
  · cases p with
    | nil => exact absurd hwf.head (by simp)
    | cons e p0 =>
      have he : e = (start, none) := by
        have := hwf.head
        simpa using this
      simp [he]
  · intro e he hnone
    rcases List.mem_append.mp he with hp | hx
    · exact hwf.root e hp hnone
    · exact absurd hnone (by simp [(hextra e hx).1])
  · intro i e hi y hy
    by_cases hip : i < p.length
    · rw [List.getElem?_append_left hip] at hi
      obtain ⟨j, f, hji, hjf, hfy, hadj⟩ := hwf.prev i e hi y hy
      have hjlen : j < p.length :=
        (List.getElem?_eq_some_iff.mp hjf).1
      exact ⟨j, f, hji, by rw [List.getElem?_append_left hjlen]; exact hjf,
        hfy, hadj⟩
    · push_neg at hip
      rw [List.getElem?_append_right hip] at hi
      have hmem : e ∈ extra := List.mem_iff_getElem?.mpr ⟨i - p.length, hi⟩
      have hcurr := (hextra e hmem).1
      have hycur : y = current := by
        rw [hcurr] at hy
        exact (Option.some.injEq _ _ ▸ hy).symm
      obtain ⟨j, f, hjf, hfcur⟩ := mem_parentKeys_getElem hcur
      have hjlen : j < p.length := (List.getElem?_eq_some_iff.mp hjf).1
      refine ⟨j, f, by omega, by rw [List.getElem?_append_left hjlen]; exact hjf,
        by rw [hfcur, hycur], ?_⟩
      subst hycur
      exact (hextra e hmem).2

/-! ### The BFS loop preserves the invariants -/

theorem bfsLoop_wf (m : Maze) (start : Coor) :
    ∀ (fuel : Nat) (q : List Coor) (p : Parents), ParentsWF m start p →
      (∀ x ∈ q, x ∈ parentKeys p) →
      ParentsWF m start (bfsLoop m fuel q p) := by
  intro fuel
  induction fuel with
  | zero => intro q p hwf _; exact hwf
  | succ fuel ih =>
    intro q p hwf hq
    cases q with
    | nil => exact hwf
    | cons current rest =>
      simp only [bfsLoop]
      by_cases hgoal : current = m.exit_coor
      · rw [if_pos hgoal]; exact hwf
      · rw [if_neg hgoal]
        obtain ⟨extra, heq, hextra⟩ :=
          visitFold_structure current (get_neighbors m current.1 current.2) rest p
        have hcur : current ∈ parentKeys p := hq current (List.mem_cons_self _ _)
        have hwf' := hwf.visit (q := rest) hcur
        apply ih _ _ hwf'
        intro x hx
        rw [bfsVisit_eq_visitFold, heq] at hx ⊢
        rcases List.mem_append.mp hx with hrest | hnew
        · have : x ∈ parentKeys p := hq x (List.mem_cons_of_mem _ hrest)
          simp only [parentKeys, List.map_append]
          exact List.mem_append_left _ this
        · simp only [parentKeys, List.map_append]
          exact List.mem_append_right _ hnew

theorem bfsLoop_keys_mono (m : Maze) :
    ∀ (fuel : Nat) (q : List Coor) (p : Parents), ∀ x ∈ parentKeys p,
      x ∈ parentKeys (bfsLoop m fuel q p) := by
  intro fuel
  induction fuel with
  | zero => intro q p x hx; exact hx
  | succ fuel ih =>
    intro q p x hx
    cases q with
    | nil => exact hx
    | cons current rest =>
      simp only [bfsLoop]
      by_cases hgoal : current = m.exit_coor
      · rw [if_pos hgoal]; exact hx
      · rw [if_neg hgoal]
        obtain ⟨extra, heq, -⟩ :=
          visitFold_structure current (get_neighbors m current.1 current.2) rest p
        apply ih
        rw [bfsVisit_eq_visitFold, heq]
        simp only [parentKeys, List.map_append]
        exact List.mem_append_left _ hx

theorem bfsLoop_reach (m : Maze) (start : Coor) :
    ∀ (fuel : Nat) (q : List Coor) (p : Parents),
      (∀ x ∈ parentKeys p, Reachable m start x) →
      (∀ x ∈ q, x ∈ parentKeys p) →
      ∀ x ∈ parentKeys (bfsLoop m fuel q p), Reachable m start x := by
  intro fuel
  induction fuel with
  | zero => intro q p hreach _ x hx; exact hreach x hx
  | succ fuel ih =>
    intro q p hreach hq
    cases q with
    | nil => exact hreach
    | cons current rest =>
      simp only [bfsLoop]
      by_cases hgoal : current = m.exit_coor
      · rw [if_pos hgoal]; exact hreach
      · rw [if_neg hgoal]
        obtain ⟨extra, heq, hextra⟩ :=
          visitFold_structure current (get_neighbors m current.1 current.2) rest p
        have hcur : current ∈ parentKeys p := hq current (List.mem_cons_self _ _)
        apply ih
        · intro x hx
          rw [bfsVisit_eq_visitFold, heq] at hx
          simp only [parentKeys, List.map_append] at hx
          rcases List.mem_append.mp hx with hold | hnew
          · exact hreach x hold
          · obtain ⟨e, he, hex⟩ := List.mem_map.mp hnew
            have hadj : adjOpen m current x := by
              unfold adjOpen
              rw [← hex]
              exact (hextra e he).2
            exact Relation.ReflTransGen.tail (hreach current hcur) hadj
        · intro x hx
          rw [bfsVisit_eq_visitFold, heq] at hx ⊢
          rcases List.mem_append.mp hx with hrest | hnew
          · have : x ∈ parentKeys p := hq x (List.mem_cons_of_mem _ hrest)
            simp only [parentKeys, List.map_append]
            exact List.mem_append_left _ this
          · simp only [parentKeys, List.map_append]
            exact List.mem_append_right _ hnew

/-- A duplicate-free list of in-bounds coordinates has at most
`num_rows * num_cols` entries. -/
theorem nodup_inBounds_length_le (m : Maze) (l : List Coor) (hnd : l.Nodup)
    (hin : ∀ x ∈ l, InBounds m x) :
    l.length ≤ m.num_rows * m.num_cols := by
  classical
  have hsub : l.toFinset ⊆
      (Finset.range m.num_rows) ×ˢ (Finset.range m.num_cols) := by
    intro x hx
    rw [List.mem_toFinset] at hx
    obtain ⟨h1, h2⟩ := hin x hx
    rw [Finset.mem_product]
    exact ⟨Finset.mem_range.mpr h1, Finset.mem_range.mpr h2⟩
  calc l.length = l.toFinset.card := (List.toFinset_card_of_nodup hnd).symm
    _ ≤ ((Finset.range m.num_rows) ×ˢ (Finset.range m.num_cols)).card :=
        Finset.card_le_card hsub
    _ = m.num_rows * m.num_cols := by
        rw [Finset.card_product, Finset.card_range, Finset.card_range]

/-- With enough fuel the loop either finds the exit or ends with the visited
key set closed under open-wall adjacency. -/
theorem bfsLoop_complete (m : Maze) :
    ∀ (fuel : Nat) (q : List Coor) (p : Parents),
      (parentKeys p).Nodup →
      (∀ x ∈ q, x ∈ parentKeys p) →
      (∀ x ∈ parentKeys p, InBounds m x) →
      (∀ x ∈ parentKeys p, x ∈ q ∨
        ∀ nb ∈ get_neighbors m x.1 x.2, nb ∈ parentKeys p) →
      2 * (m.num_rows * m.num_cols - (parentKeys p).length) + q.length + 1 ≤
        fuel →
      (m.exit_coor ∈ parentKeys (bfsLoop m fuel q p) ∨
        ∀ x ∈ parentKeys (bfsLoop m fuel q p),
          ∀ nb ∈ get_neighbors m x.1 x.2,
            nb ∈ parentKeys (bfsLoop m fuel q p)) := by
  intro fuel
  induction fuel with
  | zero => intro q p _ _ _ _ hfuel; omega
  | succ fuel ih =>
    intro q p hnd hq hinb hexp hfuel
    cases q with
    | nil =>
      right
      simp only [bfsLoop]
      intro x hx
      rcases hexp x hx with hmem | hclosed
      · simp at hmem
      · exact hclosed
    | cons current rest =>
      simp only [bfsLoop]
      by_cases hgoal : current = m.exit_coor
      · rw [if_pos hgoal]
        exact Or.inl (hgoal ▸ hq current (List.mem_cons_self _ _))
      · rw [if_neg hgoal]
        obtain ⟨extra, heq, hextra⟩ :=
          visitFold_structure current (get_neighbors m current.1 current.2)
            rest p
        have hcur : current ∈ parentKeys p := hq current (List.mem_cons_self _ _)
        have hvisits :=
          visitFold_visits current (get_neighbors m current.1 current.2) rest p
        have hnd' :=
          visitFold_nodup current (get_neighbors m current.1 current.2)
            rest p hnd
        rw [bfsVisit_eq_visitFold, heq]
        dsimp only
        rw [heq] at hnd'
        have hkeys : parentKeys (p ++ extra) =
            parentKeys p ++ extra.map Prod.fst := by
          simp [parentKeys]
        have hinb' : ∀ x ∈ parentKeys (p ++ extra), InBounds m x := by
          intro x hx
          rw [hkeys] at hx
          rcases List.mem_append.mp hx with hold | hnew
          · exact hinb x hold
          · obtain ⟨e, he, hex⟩ := List.mem_map.mp hnew
            exact hex ▸
              get_neighbors_inBounds (hinb current hcur) e.1 (hextra e he).2
        apply ih
        · exact hnd'
        · intro x hx
          rw [hkeys]
          rcases List.mem_append.mp hx with hrest | hnew
          · exact List.mem_append_left _ (hq x (List.mem_cons_of_mem _ hrest))
          · exact List.mem_append_right _ hnew
        · exact hinb'
        · intro x hx
          rw [hkeys] at hx
          rcases List.mem_append.mp hx with hold | hnew
          · rcases hexp x hold with hinq | hclosed
            · rcases List.mem_cons.mp hinq with rfl | hinrest
              · right
                intro nb hnb
                have := hvisits nb hnb
                rw [heq] at this
                exact this
              · exact Or.inl (List.mem_append_left _ hinrest)
            · right
              intro nb hnb
              rw [hkeys]
              exact List.mem_append_left _ (hclosed nb hnb)
          · exact Or.inl (List.mem_append_right _ hnew)
        · have hlen : (parentKeys (p ++ extra)).length =
              (parentKeys p).length + extra.length := by
            simp [parentKeys]
          have hqlen : (rest ++ extra.map Prod.fst).length =
              rest.length + extra.length := by simp
          have harea : (parentKeys (p ++ extra)).length ≤
              m.num_rows * m.num_cols :=
            nodup_inBounds_length_le m _ hnd' hinb'
          have hql : (current :: rest).length = rest.length + 1 := rfl
          rw [hql] at hfuel
          omega

theorem bfs_parents_wf (m : Maze) :
    ParentsWF m m.entry_coor (bfs_parents m) := by
  apply bfsLoop_wf
  · refine ⟨by simp [parentKeys], rfl, ?_, ?_⟩
    · intro e he _
      have : e = (m.entry_coor, none) := by simpa using he
      rw [this]
    · intro i e hi y hy
      cases i with
      | zero =>
        have h0 : (m.entry_coor, none) = e := by simpa using hi
        rw [← h0] at hy
        simp at hy
      | succ j => simp at hi
  · intro x hx
    simpa [parentKeys] using hx

theorem bfs_parents_reach (m : Maze) :
    ∀ x ∈ parentKeys (bfs_parents m), Reachable m m.entry_coor x := by
  apply bfsLoop_reach
  · intro x hx
    have : x = m.entry_coor := by simpa [parentKeys] using hx
    rw [this]
    exact Relation.ReflTransGen.refl
  · intro x hx
    simpa [parentKeys] using hx

theorem bfs_parents_finds (m : Maze) (he : InBounds m m.entry_coor)
    (hr : Reachable m m.entry_coor m.exit_coor) :
    m.exit_coor ∈ parentKeys (bfs_parents m) := by
  have hstart : m.entry_coor ∈ parentKeys (bfs_parents m) := by
    apply bfsLoop_keys_mono
    simp [parentKeys]
  rcases bfsLoop_complete m (2 * (m.num_rows * m.num_cols) + 2) [m.entry_coor]
      [(m.entry_coor, none)]
      (by simp [parentKeys])
      (by intro x hx; simpa [parentKeys] using hx)
      (by
        intro x hx
        have : x = m.entry_coor := by simpa [parentKeys] using hx
        rw [this]; exact he)
      (by intro x hx; left; simpa [parentKeys] using hx)
      (by
        simp only [parentKeys, List.map_cons, List.map_nil, List.length_cons,
          List.length_nil]
        omega) with hfound | hclosed
  · exact hfound
  · have hall : ∀ z, Relation.ReflTransGen (adjOpen m) m.entry_coor z →
        z ∈ parentKeys (bfs_parents m) := by
      intro z hz
      induction hz with
      | refl => exact hstart
      | tail hab hbc ih => exact hclosed _ ih _ hbc
    exact hall _ hr

/-! ### Reconstruction of the path from the parents dict -/

theorem backtrackPath_spec {m : Maze} {start : Coor} {p : Parents}
    (hwf : ParentsWF m start p) :
    ∀ (fuel i : Nat) (e : Coor × Option Coor), p[i]? = some e → i < fuel →
      (backtrackPath p fuel e.1).head? = some e.1 ∧
      (backtrackPath p fuel e.1).getLast? = some start ∧
      (backtrackPath p fuel e.1).Nodup ∧
      List.Chain' (fun a b => a ∈ get_neighbors m b.1 b.2)
        (backtrackPath p fuel e.1) ∧
      (∀ x ∈ backtrackPath p fuel e.1,
        ∃ (j : Nat) (f : Coor × Option Coor), j ≤ i ∧ p[j]? = some f ∧
          f.1 = x) := by
  intro fuel
  induction fuel with
  | zero => intro i e _ hlt; omega
  | succ fuel ih =>
    intro i e hi hlt
    have hlook : lookupParent p e.1 = some e.2 :=
      lookupParent_of_getElem hwf.nodup hi
    cases he2 : e.2 with
    | none =>
      have hpath : backtrackPath p (fuel + 1) e.1 = [e.1] := by
        rw [he2] at hlook
        simp [backtrackPath, hlook]
      have hstart : e.1 = start :=
        hwf.root e (List.mem_iff_getElem?.mpr ⟨i, hi⟩) he2
      rw [hpath]
      refine ⟨rfl, by simp [hstart], List.nodup_singleton _,
        List.chain'_singleton _, ?_⟩
      intro x hx
      rw [List.mem_singleton] at hx
      exact ⟨i, e, le_refl i, hi, hx ▸ rfl⟩
    | some y =>
      obtain ⟨j, f, hji, hjf, hfy, hadj⟩ := hwf.prev i e hi y he2
      have hjlt : j < fuel := by omega
      obtain ⟨ihhead, ihlast, ihnd, ihchain, ihmem⟩ := ih j f hjf hjlt
      have hpath : backtrackPath p (fuel + 1) e.1 =
          e.1 :: backtrackPath p fuel f.1 := by
        rw [he2] at hlook
        rw [hfy]
        simp [backtrackPath, hlook]
      rw [hpath]
      have hne : backtrackPath p fuel f.1 ≠ [] := by
        intro h0; rw [h0] at ihhead; simp at ihhead
      refine ⟨rfl, ?_, ?_, ?_, ?_⟩
      · cases hc : backtrackPath p fuel f.1 with
        | nil => exact absurd hc hne
        | cons z c2 =>
          rw [hc] at ihlast
          rw [List.getLast?_cons_cons]
          exact ihlast
      · rw [List.nodup_cons]
        refine ⟨?_, ihnd⟩
        intro hx
        obtain ⟨j2, f2, hj2le, hj2f, hf2x⟩ := ihmem e.1 hx
        have hkey_i : (parentKeys p)[i]? = some e.1 := by
          rw [parentKeys, List.getElem?_map, hi]; rfl
        have hkey_j2 : (parentKeys p)[j2]? = some e.1 := by
          rw [parentKeys, List.getElem?_map, hj2f]
          simp [hf2x]
        have hilen : i < (parentKeys p).length := by
          rw [parentKeys, List.length_map]
          exact (List.getElem?_eq_some_iff.mp hi).1
        have : i = j2 :=
          List.getElem?_inj hilen hwf.nodup (hkey_i.trans hkey_j2.symm)
        omega
      · rw [List.chain'_cons']
        refine ⟨?_, ihchain⟩
        intro z hz
        rw [ihhead, Option.mem_def, Option.some.injEq] at hz
        rw [← hz, hfy]
        exact hadj
      · intro x hx
        rcases List.mem_cons.mp hx with rfl | hx2
        · exact ⟨i, e, le_refl i, hi, rfl⟩
        · obtain ⟨j2, f2, hj2le, hj2f, hf2x⟩ := ihmem x hx2
          exact ⟨j2, f2, by omega, hj2f, hf2x⟩

theorem found_path_spec (m : Maze)
    (hfound : m.exit_coor ∈ parentKeys (bfs_parents m)) :
    (found_path m).head? = some m.entry_coor ∧
    (found_path m).getLast? = some m.exit_coor ∧
    (found_path m).Nodup ∧
    List.Chain' (adjOpen m) (found_path m) := by
  obtain ⟨i, e, hi, hex⟩ := mem_parentKeys_getElem hfound
  have hwf := bfs_parents_wf m
  have hilen : i < (bfs_parents m).length :=
    (List.getElem?_eq_some_iff.mp hi).1
  obtain ⟨hhead, hlast, hnd, hchain, -⟩ :=
    backtrackPath_spec hwf (bfs_parents m).length i e hi hilen
  rw [hex] at hhead hlast hnd hchain
  unfold found_path
  refine ⟨?_, ?_, List.nodup_reverse.mpr hnd, ?_⟩
  · rw [List.head?_reverse]; exact hlast
  · rw [List.getLast?_reverse]; exact hhead
  · rw [List.chain'_reverse]
    exact hchain

theorem compute_found (m : Maze)
    (hfound : m.exit_coor ∈ parentKeys (bfs_parents m)) :
    compute_shortest_path m =
      ⟨(found_path m).map coordOut, (dirPairs (found_path m)).map Prod.fst,
        (dirPairs (found_path m)).map Prod.snd⟩ := by
  unfold compute_shortest_path
  rw [if_neg]
  intro hnone
  exact (lookupParent_eq_none.mp hnone) hfound

theorem dirPairs_length {path : List Coor} (h : path ≠ []) :
    (dirPairs path).length + 1 = path.length := by
  unfold dirPairs
  rw [List.length_map, List.length_zip, List.length_tail]
  have : 0 < path.length := List.length_pos.mpr h
  omega

theorem chain'_zip_tail {α : Type} {R : α → α → Prop} :
    ∀ {l : List α}, List.Chain' R l → ∀ ab ∈ l.zip l.tail, R ab.1 ab.2 := by
  intro l
  induction l with
  | nil => intro _ ab hab; simp at hab
  | cons x t ih =>
    intro hch ab hab
    cases t with
    | nil => simp at hab
    | cons y t2 =>
      rw [List.chain'_cons] at hch
      simp only [List.tail_cons] at hab
      rw [List.zip_cons_cons] at hab
      rcases List.mem_cons.mp hab with rfl | hab2
      · exact hch.1
      · exact ih hch.2 ab hab2

theorem dirPairs_good {m : Maze} {path : List Coor}
    (hch : List.Chain' (adjOpen m) path) :
    ∀ lc ∈ dirPairs path, lc.1 ∈ fourLabels ∧ lc.2 = dir_to_numeric lc.1 := by
  intro lc hlc
  unfold dirPairs at hlc
  obtain ⟨ab, hab, habeq⟩ := List.mem_map.mp hlc
  have hadj : adjOpen m ab.1 ab.2 := chain'_zip_tail hch ab hab
  rcases adjOpen_delta hadj with h | h | h | h <;>
    rw [← habeq, h] <;> exact ⟨by decide, by decide⟩

theorem compute_directions_spec (m : Maze) :
    (compute_shortest_path m).directions_numeric =
      (compute_shortest_path m).directions.map dir_to_numeric ∧
    ∀ d ∈ (compute_shortest_path m).directions, d ∈ fourLabels := by
  by_cases hnone : lookupParent (bfs_parents m) m.exit_coor = none
  · unfold compute_shortest_path
    rw [if_pos hnone]
    exact ⟨rfl, by simp⟩
  · have hfound : m.exit_coor ∈ parentKeys (bfs_parents m) := by
      by_contra hmem
      exact hnone (lookupParent_eq_none.mpr hmem)
    rw [compute_found m hfound]
    obtain ⟨-, -, -, hchain⟩ := found_path_spec m hfound
    have hgood := dirPairs_good hchain
    constructor
    · show (dirPairs (found_path m)).map Prod.snd =
        ((dirPairs (found_path m)).map Prod.fst).map dir_to_numeric
      rw [List.map_map]
      exact List.map_congr_left fun lc hlc => (hgood lc hlc).2
    · intro d hd
      obtain ⟨lc, hlc, hlce⟩ := List.mem_map.mp hd
      exact hlce ▸ (hgood lc hlc).1

theorem compute_path_spec (m : Maze) (he : InBounds m m.entry_coor)
    (hr : Reachable m m.entry_coor m.exit_coor) :
    (compute_shortest_path m).coordinates = (found_path m).map coordOut ∧
    (found_path m).head? = some m.entry_coor ∧
    (found_path m).getLast? = some m.exit_coor ∧
    (found_path m).Nodup ∧
    List.Chain' (adjOpen m) (found_path m) ∧
    (compute_shortest_path m).coordinates.length =
      (compute_shortest_path m).directions.length + 1 := by
  have hfound := bfs_parents_finds m he hr
  obtain ⟨hh, hl, hnd, hch⟩ := found_path_spec m hfound
  have hceq := compute_found m hfound
  refine ⟨by rw [hceq], hh, hl, hnd, hch, ?_⟩
  rw [hceq]
  simp only [List.length_map]
  have hne : found_path m ≠ [] := by
    intro h0; rw [h0] at hh; simp at hh
  exact (dirPairs_length hne).symm

/-! ### Generic path helpers -/

theorem chain'_head_getLast_reflTransGen {α : Type} {R : α → α → Prop} :
    ∀ {l : List α} {a b : α}, l.head? = some a → l.getLast? = some b →
      List.Chain' R l → Relation.ReflTransGen R a b := by
  intro l
  induction l with
  | nil => intro a b h; simp at h
  | cons x t ih =>
    intro a b hh hl hch
    have hax : x = a := by simpa using hh
    subst hax
    cases t with
    | nil =>
      have hxb : x = b := by simpa using hl
      rw [hxb]
    | cons y t2 =>
      rw [List.chain'_cons] at hch
      rw [List.getLast?_cons_cons] at hl
      exact Relation.ReflTransGen.head hch.1 (ih rfl hl hch.2)

/-- A simple open path from a cell to itself is the singleton path. -/
theorem isSimpleOpenPath_self {m : Maze} {p : List Coor} {x : Coor}
    (h : IsSimpleOpenPath m p x x) : p = [x] := by
  obtain ⟨hh, hl, hnd, -⟩ := h
  cases p with
  | nil => simp at hh
  | cons y t =>
    have hyx : y = x := by simpa using hh
    subst hyx
    cases t with
    | nil => rfl
    | cons z t2 =>
      rw [List.getLast?_cons_cons] at hl
      rw [List.nodup_cons] at hnd
      exact absurd (List.mem_of_getLast?_eq_some hl) hnd.1

/-- Left inverse of `coordOut`, to read a path back off its serialized
coordinates. -/
def decodeCoord (l : List Nat) : Coor := (l.getD 0 0, l.getD 1 0)

theorem decode_coordOut_map (path : List Coor) :
    (path.map coordOut).map decodeCoord = path := by
  rw [List.map_map]
  have h : ∀ x ∈ path, (decodeCoord ∘ coordOut) x = id x := fun x _ => rfl
  rw [List.map_congr_left h, List.map_id]

theorem coordOut_injective : Function.Injective coordOut := by
  intro a b h
  simp only [coordOut, List.cons.injEq, and_true] at h
  exact Prod.ext h.1 h.2

/-! ### Helpers for the perturbation code -/

/-- The `idx = random.randrange(len(directions))` draw. -/
def subIdx (sp : PathResult) (i : Nat) : Nat := i % sp.directions.length

/-- The `current_dir = directions[idx]` read. -/
def curDir (sp : PathResult) (i : Nat) : String :=
  sp.directions.getD (subIdx sp i) ""

/-- The `alternatives` list of the substitution branch. -/
def altList (sp : PathResult) (i : Nat) (labels : List String) : List String :=
  labels.filter (fun d => decide (d ≠ curDir sp i))

/-- The `new_dir = random.choice(alternatives)` draw. -/
def newDir (sp : PathResult) (i s : Nat) (labels : List String) : String :=
  (altList sp i labels).getD (s % (altList sp i labels).length) ""

/-- The `add_dir = random.choice(direction_labels)` draw. -/
def addDir (a : Nat) (labels : List String) : String :=
  labels.getD (a % labels.length) ""

theorem build_st_of_nil (sp : PathResult) (i s a : Nat) (labels : List String)
    (h : sp.directions = []) :
    build_incorrect_paths_st sp i s a labels = (⟨none, none, none⟩, sp) := by
  simp only [build_incorrect_paths_st, if_pos h]

theorem build_st_of_ne (sp : PathResult) (i s a : Nat) (labels : List String)
    (h : ¬ sp.directions = []) :
    build_incorrect_paths_st sp i s a labels =
      (⟨some ⟨subIdx sp i, curDir sp i, newDir sp i s labels,
          sp.directions.set (subIdx sp i) (newDir sp i s labels),
          sp.directions_numeric.set (subIdx sp i)
            (dir_to_numeric (newDir sp i s labels))⟩,
        some ⟨addDir a labels, sp.directions ++ [addDir a labels],
          sp.directions_numeric ++ [dir_to_numeric (addDir a labels)]⟩,
        if 1 < sp.directions.length then
          some ⟨sp.directions.getLastD "", sp.directions.dropLast,
            sp.directions_numeric.dropLast⟩
        else none⟩, sp) := by
  simp only [build_incorrect_paths_st, if_neg h]
  rfl

theorem altList_ne_nil (sp : PathResult) (i : Nat) :
    altList sp i fourLabels ≠ [] := by
  intro h
  rw [altList, List.filter_eq_nil_iff] at h
  have h1 := h "up" (by decide)
  have h2 := h "down" (by decide)
  simp only [decide_eq_true_eq, not_not] at h1 h2
  exact absurd (h1.trans h2.symm) (by decide)

theorem getD_mod_mem {α : Type} {l : List α} (h : l ≠ []) (k : Nat) (d : α) :
    l.getD (k % l.length) d ∈ l := by
  have hlt : k % l.length < l.length := Nat.mod_lt _ (List.length_pos.mpr h)
  rw [List.getD_eq_getElem?_getD, List.getElem?_eq_getElem hlt,
    Option.getD_some]
  exact List.getElem_mem hlt

theorem getD_set_self {α : Type} {l : List α} {i : Nat} {a : α}
    (h : i < l.length) (d : α) : (l.set i a).getD i d = a := by
  rw [List.getD_eq_getElem?_getD, List.getElem?_set_self h, Option.getD_some]

theorem getD_set_ne {α : Type} {l : List α} {i j : Nat} {a : α} (h : i ≠ j)
    (d : α) : (l.set i a).getD j d = l.getD j d := by
  rw [List.getD_eq_getElem?_getD, List.getD_eq_getElem?_getD,
    List.getElem?_set_ne h]

/-! ### Concrete mazes used as witnesses and counterexamples -/

/-- A fully walled cell. -/
def wallCell : Cell := ⟨true, true, true, true⟩

/-- A 3×3 maze whose only open walls form the corridor
`(0,0)-(0,1)-(0,2)-(1,2)-(2,2)`. -/
def mazeCorridor : Maze :=
  { num_rows := 3, num_cols := 3
    grid :=
      [[⟨true, false, true, true⟩, ⟨true, false, true, false⟩,
        ⟨true, true, false, false⟩],
       [wallCell, wallCell, ⟨false, true, false, true⟩],
       [wallCell, wallCell, ⟨false, true, true, true⟩]]
    entry_coor := (0, 0)
    exit_coor := (2, 2)
    generation_path := [] }

/-- A 1×2 maze with every wall present: the exit is unreachable. -/
def mazeBlocked : Maze :=
  { num_rows := 1, num_cols := 2, grid := [[wallCell, wallCell]]
    entry_coor := (0, 0), exit_coor := (0, 1), generation_path := [] }

/-- The 1×1 maze. -/
def mazeUnit : Maze :=
  { num_rows := 1, num_cols := 1, grid := [[wallCell]]
    entry_coor := (0, 0), exit_coor := (0, 0), generation_path := [] }

/-- A 1×2 maze with the shared wall carved open. -/
def mazePair : Maze :=
  { num_rows := 1, num_cols := 2
    grid := [[⟨true, false, true, true⟩, ⟨true, true, true, false⟩]]
    entry_coor := (0, 0), exit_coor := (0, 1), generation_path := [] }

/-- `mazePair` with swapped entry/exit and a different generation trace:
the wall grid, hence the fingerprint, is identical. -/
def mazePair2 : Maze :=
  { num_rows := 1, num_cols := 2
    grid := [[⟨true, false, true, true⟩, ⟨true, true, true, false⟩]]
    entry_coor := (0, 1), exit_coor := (0, 0)
    generation_path := [(0, 0), (0, 1)] }

/-! ### The claims -/

/-- C1: on a maze whose open-wall graph is a spanning tree with symmetric
walls (a perfect maze), `compute_shortest_path` returns exactly the unique
simple entry-to-exit path, and re-running it on the same maze returns the
identical result (the search is deterministic: it draws no randomness). -/
theorem spec_C1 (m : Maze) (hsym : WallSym m) (hperf : IsPerfect m)
    (he : InBounds m m.entry_coor) (hx : InBounds m m.exit_coor) :
    (∀ q : List Coor, IsSimpleOpenPath m q m.entry_coor m.exit_coor →
      (compute_shortest_path m).coordinates = q.map coordOut) ∧
    compute_shortest_path m = compute_shortest_path m := by
  obtain ⟨p0, hp0, huniq⟩ := hperf m.entry_coor m.exit_coor he hx
  have hreach : Reachable m m.entry_coor m.exit_coor :=
    chain'_head_getLast_reflTransGen hp0.1 hp0.2.1 hp0.2.2.2
  obtain ⟨hcoords, hh, hl, hnd, hch, -⟩ := compute_path_spec m he hreach
  have hfp : IsSimpleOpenPath m (found_path m) m.entry_coor m.exit_coor :=
    ⟨hh, hl, hnd, hch⟩
  refine ⟨fun q hq => ?_, rfl⟩
  rw [hcoords, huniq (found_path m) hfp, huniq q hq]

/-- C1 witness: the 1×1 maze is perfect, and the computed path is the unique
simple path `[(0,0)]`. -/
theorem spec_C1_witness :
    (compute_shortest_path mazeUnit).coordinates =
      ([((0 : Nat), (0 : Nat))] : List Coor).map coordOut := by
  have hperf : IsPerfect mazeUnit := by
    intro a b ha hb
    have ha0 : a = (0, 0) :=
      Prod.ext (Nat.lt_one_iff.mp ha.1) (Nat.lt_one_iff.mp ha.2)
    have hb0 : b = (0, 0) :=
      Prod.ext (Nat.lt_one_iff.mp hb.1) (Nat.lt_one_iff.mp hb.2)
    subst ha0
    subst hb0
    refine ⟨[(0, 0)], ⟨by decide, by decide, List.nodup_singleton _,
      List.chain'_singleton _⟩, ?_⟩
    intro y hy
    exact isSimpleOpenPath_self hy
  exact (spec_C1 mazeUnit (by decide) hperf (by decide) (by decide)).1
    [(0, 0)] ⟨by decide, by decide, List.nodup_singleton _,
      List.chain'_singleton _⟩

/-- C2 counterexample: `mazeCorridor` is a 3×3 maze with entry (0,0) and
exit (2,2) whose shortest path is two column-increasing moves followed by
two row-increasing moves, yet the code labels the row-increasing moves
"up" with numeric code 1 — not "down" with code 0 as claimed. -/
theorem spec_C2_counterexample :
    compute_shortest_path mazeCorridor =
      ⟨[[0, 0], [0, 1], [0, 2], [1, 2], [2, 2]],
        ["right", "right", "up", "up"], [3, 3, 1, 1]⟩ ∧
    ¬((compute_shortest_path mazeCorridor).directions =
        ["right", "right", "down", "down"] ∧
      (compute_shortest_path mazeCorridor).directions_numeric =
        [3, 3, 0, 0]) := by
  decide

/-- C2 (amended): for any maze whose computed shortest path visits
[[0,0],[0,1],[0,2],[1,2],[2,2]] — two column-increasing then two
row-increasing moves — the labels are ["right","right","up","up"] with
numeric codes [3,3,1,1]: the fixed mapping is right=3, down=0, up=1,
left=2, with "up" labelling the row-increasing move. -/
theorem spec_C2 (m : Maze)
    (h : (compute_shortest_path m).coordinates =
      [[0, 0], [0, 1], [0, 2], [1, 2], [2, 2]]) :
    (compute_shortest_path m).directions = ["right", "right", "up", "up"] ∧
    (compute_shortest_path m).directions_numeric = [3, 3, 1, 1] := by
  by_cases hnone : lookupParent (bfs_parents m) m.exit_coor = none
  · unfold compute_shortest_path at h
    rw [if_pos hnone] at h
    simp at h
  · have hfound : m.exit_coor ∈ parentKeys (bfs_parents m) := by
      by_contra hmem
      exact hnone (lookupParent_eq_none.mpr hmem)
    have hceq := compute_found m hfound
    rw [hceq] at h
    have hfp : found_path m = [(0, 0), (0, 1), (0, 2), (1, 2), (2, 2)] := by
      have h2 := congrArg (List.map decodeCoord) h
      rw [decode_coordOut_map] at h2
      exact h2.trans (by decide)
    rw [hceq]
    constructor
    · show (dirPairs (found_path m)).map Prod.fst = _
      rw [hfp]
      decide
    · show (dirPairs (found_path m)).map Prod.snd = _
      rw [hfp]
      decide

/-- C2 witness: the corridor maze realizes the amended claim. -/
theorem spec_C2_witness :
    (compute_shortest_path mazeCorridor).directions =
      ["right", "right", "up", "up"] ∧
    (compute_shortest_path mazeCorridor).directions_numeric = [3, 3, 1, 1] :=
  spec_C2 mazeCorridor (by decide)

/-- C3: when the exit is unreachable from the entry through open walls,
`compute_shortest_path` returns the explicit empty result (empty
coordinates, directions and numeric codes) — the function is total, so no
error is raised. -/
theorem spec_C3 (m : Maze) (h : ¬ Reachable m m.entry_coor m.exit_coor) :
    compute_shortest_path m = ⟨[], [], []⟩ := by
  have hnone : lookupParent (bfs_parents m) m.exit_coor = none := by
    rw [lookupParent_eq_none]
    intro hmem
    exact h (bfs_parents_reach m m.exit_coor hmem)
  unfold compute_shortest_path
  rw [if_pos hnone]

/-- C3 witness: the fully walled 1×2 maze. -/
theorem spec_C3_witness :
    compute_shortest_path mazeBlocked = ⟨[], [], []⟩ := by
  apply spec_C3
  intro h
  rcases Relation.ReflTransGen.cases_head h with heq | ⟨c, hstep, -⟩
  · exact absurd heq (by decide)
  · have hmem : c ∈ get_neighbors mazeBlocked 0 0 := hstep
    have hnil : get_neighbors mazeBlocked 0 0 = [] := by decide
    rw [hnil] at hmem
    exact absurd hmem (List.not_mem_nil c)

/-- C4: on a maze with symmetric walls whose exit is reachable from the
entry, the returned path starts at the entry, ends at the exit, has one more
coordinate than directions, repeats no coordinate, and every consecutive
pair of coordinates is adjacent through an open wall. -/
theorem spec_C4 (m : Maze) (hsym : WallSym m) (he : InBounds m m.entry_coor)
    (hr : Reachable m m.entry_coor m.exit_coor) :
    (compute_shortest_path m).coordinates = (found_path m).map coordOut ∧
    (compute_shortest_path m).coordinates.head? =
      some (coordOut m.entry_coor) ∧
    (compute_shortest_path m).coordinates.getLast? =
      some (coordOut m.exit_coor) ∧
    (compute_shortest_path m).coordinates.length =
      (compute_shortest_path m).directions.length + 1 ∧
    (compute_shortest_path m).coordinates.Nodup ∧
    (found_path m).head? = some m.entry_coor ∧
    (found_path m).getLast? = some m.exit_coor ∧
    (found_path m).Nodup ∧
    List.Chain' (adjOpen m) (found_path m) := by
  obtain ⟨hcoords, hh, hl, hnd, hch, hlen⟩ := compute_path_spec m he hr
  refine ⟨hcoords, ?_, ?_, hlen, ?_, hh, hl, hnd, hch⟩
  · rw [hcoords, List.head?_map, hh]
    rfl
  · rw [hcoords, List.getLast?_map, hl]
    rfl
  · rw [hcoords]
    exact hnd.map coordOut_injective

/-- C4 witness: the open 1×2 maze. -/
theorem spec_C4_witness :
    (compute_shortest_path mazePair).coordinates.head? =
      some (coordOut (0, 0)) ∧
    (compute_shortest_path mazePair).coordinates.length =
      (compute_shortest_path mazePair).directions.length + 1 := by
  have h := spec_C4 mazePair (by decide) (by decide)
    (Relation.ReflTransGen.single
      (show adjOpen mazePair (0, 0) (0, 1) by decide))
  exact ⟨h.2.1, h.2.2.2.1⟩

/-- C5: for every path with at least one direction and every random draw,
the substitution variant preserves the length, differs from the original
exactly at the recorded index, and its recorded provenance (index, original
direction, new direction) matches the original and new sequences. -/
theorem spec_C5 (sp : PathResult) (i s a : Nat) (h : sp.directions ≠ []) :
    ∃ v : SubstitutionVariant,
      (build_incorrect_paths sp i s a).substitution = some v ∧
      v.directions.length = sp.directions.length ∧
      v.modified_index < sp.directions.length ∧
      v.original_direction = sp.directions.getD v.modified_index "" ∧
      v.directions.getD v.modified_index "" = v.new_direction ∧
      v.new_direction ≠ v.original_direction ∧
      ∀ j : Nat, j ≠ v.modified_index →
        v.directions.getD j "" = sp.directions.getD j "" := by
  have hlen : 0 < sp.directions.length := List.length_pos.mpr h
  have hidx : subIdx sp i < sp.directions.length := Nat.mod_lt _ hlen
  have hnew_mem : newDir sp i s fourLabels ∈ altList sp i fourLabels :=
    getD_mod_mem (altList_ne_nil sp i) s ""
  have hnew_ne : newDir sp i s fourLabels ≠ curDir sp i := by
    unfold altList at hnew_mem
    have h2 := List.of_mem_filter hnew_mem
    simpa using h2
  refine ⟨⟨subIdx sp i, curDir sp i, newDir sp i s fourLabels,
      sp.directions.set (subIdx sp i) (newDir sp i s fourLabels),
      sp.directions_numeric.set (subIdx sp i)
        (dir_to_numeric (newDir sp i s fourLabels))⟩,
    ?_, ?_, hidx, rfl, ?_, hnew_ne, ?_⟩
  · show (build_incorrect_paths_st sp i s a fourLabels).1.substitution = _
    rw [build_st_of_ne sp i s a fourLabels h]
  · simp
  · exact getD_set_self hidx ""
  · intro j hj
    exact getD_set_ne (fun hh => hj hh.symm) ""

/-- C5 witness: a one-step path. -/
theorem spec_C5_witness :
    ∃ v : SubstitutionVariant,
      (build_incorrect_paths
        (⟨[[0, 0], [0, 1]], ["right"], [3]⟩ : PathResult) 0 0 0).substitution =
          some v ∧
      v.directions.length =
        (⟨[[0, 0], [0, 1]], ["right"], [3]⟩ : PathResult).directions.length ∧
      v.modified_index <
        (⟨[[0, 0], [0, 1]], ["right"], [3]⟩ : PathResult).directions.length ∧
      v.original_direction =
        (⟨[[0, 0], [0, 1]], ["right"], [3]⟩ : PathResult).directions.getD
          v.modified_index "" ∧
      v.directions.getD v.modified_index "" = v.new_direction ∧
      v.new_direction ≠ v.original_direction ∧
      ∀ j : Nat, j ≠ v.modified_index →
        v.directions.getD j "" =
          (⟨[[0, 0], [0, 1]], ["right"], [3]⟩ : PathResult).directions.getD
            j "" :=
  spec_C5 ⟨[[0, 0], [0, 1]], ["right"], [3]⟩ 0 0 0 (by decide)

/-- C6: for every path with at least one direction and every random draw,
the addition variant extends the original by exactly one direction: the
first N directions are unchanged, the recorded added direction is the last
entry, and every one of the four labels can be appended — no geometric
validity check restricts the draw. -/
theorem spec_C6 (sp : PathResult) (i s a : Nat) (h : sp.directions ≠ []) :
    ∃ v : AdditionVariant,
      (build_incorrect_paths sp i s a).addition = some v ∧
      v.directions.length = sp.directions.length + 1 ∧
      v.directions.take sp.directions.length = sp.directions ∧
      v.directions = sp.directions ++ [v.added_direction] ∧
      v.directions.getLast? = some v.added_direction ∧
      v.added_direction ∈ fourLabels ∧
      (∀ l ∈ fourLabels, ∃ (a2 : Nat) (w : AdditionVariant),
        (build_incorrect_paths sp i s a2).addition = some w ∧
        w.added_direction = l) := by
  refine ⟨⟨addDir a fourLabels, sp.directions ++ [addDir a fourLabels],
      sp.directions_numeric ++ [dir_to_numeric (addDir a fourLabels)]⟩,
    ?_, by simp, List.take_left _ _, rfl, List.getLast?_concat _, ?_, ?_⟩
  · show (build_incorrect_paths_st sp i s a fourLabels).1.addition = _
    rw [build_st_of_ne sp i s a fourLabels h]
  · exact getD_mod_mem (by decide) a ""
  · intro l hl
    obtain ⟨k, hk⟩ := List.mem_iff_getElem?.mp hl
    have hk4 : k < fourLabels.length := (List.getElem?_eq_some_iff.mp hk).1
    refine ⟨k, ⟨addDir k fourLabels, sp.directions ++ [addDir k fourLabels],
      sp.directions_numeric ++ [dir_to_numeric (addDir k fourLabels)]⟩,
      ?_, ?_⟩
    · show (build_incorrect_paths_st sp i s k fourLabels).1.addition = _
      rw [build_st_of_ne sp i s k fourLabels h]
    · show addDir k fourLabels = l
      unfold addDir
      rw [Nat.mod_eq_of_lt hk4, List.getD_eq_getElem?_getD, hk]
      rfl

/-- C6 witness: a one-step path. -/
theorem spec_C6_witness :
    ∃ v : AdditionVariant,
      (build_incorrect_paths
        (⟨[[0, 0], [0, 1]], ["right"], [3]⟩ : PathResult) 1 1 1).addition =
          some v ∧
      v.directions.length =
        (⟨[[0, 0], [0, 1]], ["right"], [3]⟩ : PathResult).directions.length +
          1 ∧
      v.directions.take
          (⟨[[0, 0], [0, 1]], ["right"], [3]⟩ : PathResult).directions.length =
        (⟨[[0, 0], [0, 1]], ["right"], [3]⟩ : PathResult).directions ∧
      v.directions =
        (⟨[[0, 0], [0, 1]], ["right"], [3]⟩ : PathResult).directions ++
          [v.added_direction] ∧
      v.directions.getLast? = some v.added_direction ∧
      v.added_direction ∈ fourLabels ∧
      (∀ l ∈ fourLabels, ∃ (a2 : Nat) (w : AdditionVariant),
        (build_incorrect_paths
          (⟨[[0, 0], [0, 1]], ["right"], [3]⟩ : PathResult) 1 1 a2).addition =
            some w ∧
        w.added_direction = l) :=
  spec_C6 ⟨[[0, 0], [0, 1]], ["right"], [3]⟩ 1 1 1 (by decide)

/-- C7: the subtraction variant is produced exactly when the direction count
exceeds 1, and then equals the original with the last direction dropped,
recording that dropped direction; a path with zero directions yields all
three variants absent. -/
theorem spec_C7 (sp : PathResult) (i s a : Nat) :
    ((build_incorrect_paths sp i s a).subtraction.isSome = true ↔
      1 < sp.directions.length) ∧
    (∀ v : SubtractionVariant,
      (build_incorrect_paths sp i s a).subtraction = some v →
        v.directions = sp.directions.dropLast ∧
        v.directions_numeric = sp.directions_numeric.dropLast ∧
        v.removed_direction = sp.directions.getLastD "") ∧
    (sp.directions = [] →
      build_incorrect_paths sp i s a = ⟨none, none, none⟩) := by
  by_cases h : sp.directions = []
  · have hb : build_incorrect_paths sp i s a = ⟨none, none, none⟩ := by
      show (build_incorrect_paths_st sp i s a fourLabels).1 = _
      rw [build_st_of_nil sp i s a fourLabels h]
    rw [hb]
    refine ⟨by simp [h], by simp, fun _ => rfl⟩
  · have hb := build_st_of_ne sp i s a fourLabels h
    have hsub : (build_incorrect_paths sp i s a).subtraction =
        if 1 < sp.directions.length then
          some ⟨sp.directions.getLastD "", sp.directions.dropLast,
            sp.directions_numeric.dropLast⟩
        else none := by
      show (build_incorrect_paths_st sp i s a fourLabels).1.subtraction = _
      rw [hb]
    refine ⟨?_, ?_, fun h0 => absurd h0 h⟩
    · rw [hsub]
      by_cases h2 : 1 < sp.directions.length <;> simp [h2]
    · intro v hv
      rw [hsub] at hv
      by_cases h2 : 1 < sp.directions.length
      · rw [if_pos h2] at hv
        have hv2 := (Option.some.injEq _ _ ▸ hv)
        rw [← hv2]
        exact ⟨rfl, rfl, rfl⟩
      · rw [if_neg h2] at hv
        simp at hv

/-- C7 witness: a zero-direction path yields all-absent variants, and a
two-direction path yields a subtraction variant. -/
theorem spec_C7_witness :
    build_incorrect_paths (⟨[], [], []⟩ : PathResult) 0 0 0 =
      ⟨none, none, none⟩ ∧
    (build_incorrect_paths
      (⟨[[0, 0], [0, 1], [0, 2]], ["right", "right"], [3, 3]⟩ : PathResult)
      0 0 0).subtraction.isSome = true := by
  constructor
  · exact (spec_C7 ⟨[], [], []⟩ 0 0 0).2.2 rfl
  · exact ((spec_C7 ⟨[[0, 0], [0, 1], [0, 2]], ["right", "right"], [3, 3]⟩
      0 0 0).1).mpr (by decide)

/-- C8: the deduplication fingerprint reads only the row-major wall flags —
mazes differing in entry/exit or generation path share it — and a maze whose
fingerprint equals that of an earlier checked-in maze is rejected. -/
theorem spec_C8 (seen : List Fingerprint) (m1 m2 : Maze)
    (h : hash_key m2 = hash_key m1) :
    (dedupStep (dedupStep seen m1).2 m2).1 = false ∧
    ∀ (nr nc : Nat) (g : List (List Cell)) (e1 x1 e2 x2 : Coor)
      (p1 p2 : List Coor),
      hash_key ⟨nr, nc, g, e1, x1, p1⟩ = hash_key ⟨nr, nc, g, e2, x2, p2⟩ := by
  constructor
  · by_cases h1 : hash_key m1 ∈ seen
    · have hstep : (dedupStep seen m1).2 = seen := by simp [dedupStep, h1]
      rw [hstep]
      have h2 : hash_key m2 ∈ seen := h ▸ h1
      simp [dedupStep, h2]
    · have hstep : (dedupStep seen m1).2 = hash_key m1 :: seen := by
        simp [dedupStep, h1]
      rw [hstep]
      have h2 : hash_key m2 ∈ hash_key m1 :: seen := by
        rw [h]
        exact List.mem_cons_self _ _
      simp [dedupStep, h2]
  · intro nr nc g e1 x1 e2 x2 p1 p2
    rfl

/-- C8 witness: two mazes with the same wall grid but different entry/exit
and generation traces — the second is rejected. -/
theorem spec_C8_witness :
    (dedupStep (dedupStep [] mazePair).2 mazePair2).1 = false :=
  (spec_C8 [] mazePair mazePair2 (by decide)).1

/-- Codes obtained by `dir_to_numeric` from the four labels stay in
{0,1,2,3}. -/
theorem codes_of_labels {dirs : List String} {nums : List Nat}
    (hmap : nums = dirs.map dir_to_numeric)
    (hmem : ∀ d ∈ dirs, d ∈ fourLabels) :
    ∀ n ∈ nums, n ∈ [0, 1, 2, 3] := by
  intro n hn
  rw [hmap] at hn
  obtain ⟨d, hd, hdn⟩ := List.mem_map.mp hn
  have hd4 := hmem d hd
  simp only [fourLabels, List.mem_cons, List.not_mem_nil, or_false] at hd4
  rcases hd4 with rfl | rfl | rfl | rfl <;> rw [← hdn] <;> decide

/-- C9: direction labels are always among the four fixed strings and
numeric codes among {0,1,2,3}, with the code at each index equal to
`dir_to_numeric` of the label at the same index — for the shortest-path
result and for every produced variant — and the delta-to-label map of
`compute_shortest_path` assigns the same codes as `dir_to_numeric`. -/
theorem spec_C9 (m : Maze) (i s a : Nat) :
    (∀ d ∈ (compute_shortest_path m).directions, d ∈ fourLabels) ∧
    ((compute_shortest_path m).directions_numeric =
      (compute_shortest_path m).directions.map dir_to_numeric) ∧
    (∀ n ∈ (compute_shortest_path m).directions_numeric, n ∈ [0, 1, 2, 3]) ∧
    (∀ v : SubstitutionVariant,
      (build_incorrect_paths (compute_shortest_path m) i s a).substitution =
        some v →
      (∀ d ∈ v.directions, d ∈ fourLabels) ∧
      v.directions_numeric = v.directions.map dir_to_numeric ∧
      ∀ n ∈ v.directions_numeric, n ∈ [0, 1, 2, 3]) ∧
    (∀ v : AdditionVariant,
      (build_incorrect_paths (compute_shortest_path m) i s a).addition =
        some v →
      (∀ d ∈ v.directions, d ∈ fourLabels) ∧
      v.directions_numeric = v.directions.map dir_to_numeric ∧
      ∀ n ∈ v.directions_numeric, n ∈ [0, 1, 2, 3]) ∧
    (∀ v : SubtractionVariant,
      (build_incorrect_paths (compute_shortest_path m) i s a).subtraction =
        some v →
      (∀ d ∈ v.directions, d ∈ fourLabels) ∧
      v.directions_numeric = v.directions.map dir_to_numeric ∧
      ∀ n ∈ v.directions_numeric, n ∈ [0, 1, 2, 3]) ∧
    (∀ dd ∈ [((-1 : Int), (0 : Int)), (1, 0), (0, -1), (0, 1)],
      (direction_map dd).2 = dir_to_numeric (direction_map dd).1) := by
  obtain ⟨hmap, hmem⟩ := compute_directions_spec m
  set sp := compute_shortest_path m with hspdef
  by_cases h : sp.directions = []
  · have hb : build_incorrect_paths sp i s a = ⟨none, none, none⟩ := by
      show (build_incorrect_paths_st sp i s a fourLabels).1 = _
      rw [build_st_of_nil sp i s a fourLabels h]
    rw [hb]
    exact ⟨hmem, hmap, codes_of_labels hmap hmem,
      by intro v hv; simp at hv, by intro v hv; simp at hv,
      by intro v hv; simp at hv, by decide⟩
  · have hb := build_st_of_ne sp i s a fourLabels h
    have hvar : build_incorrect_paths sp i s a =
        (build_incorrect_paths_st sp i s a fourLabels).1 := rfl
    rw [hvar, hb]
    have hnew_mem : newDir sp i s fourLabels ∈ fourLabels := by
      have h2 : newDir sp i s fourLabels ∈ altList sp i fourLabels :=
        getD_mod_mem (altList_ne_nil sp i) s ""
      unfold altList at h2
      exact (List.mem_filter.mp h2).1
    have hadd_mem : addDir a fourLabels ∈ fourLabels :=
      getD_mod_mem (by decide) a ""
    refine ⟨hmem, hmap, codes_of_labels hmap hmem, ?_, ?_, ?_, by decide⟩
    · intro v hv
      have hv2 : (⟨subIdx sp i, curDir sp i, newDir sp i s fourLabels,
          sp.directions.set (subIdx sp i) (newDir sp i s fourLabels),
          sp.directions_numeric.set (subIdx sp i)
            (dir_to_numeric (newDir sp i s fourLabels))⟩ :
            SubstitutionVariant) = v := by
        simpa using hv
      rw [← hv2]
      have hmem2 : ∀ d ∈ sp.directions.set (subIdx sp i)
          (newDir sp i s fourLabels), d ∈ fourLabels := by
        intro d hd
        rcases List.mem_or_eq_of_mem_set hd with hd2 | rfl
        · exact hmem d hd2
        · exact hnew_mem
      have hmap2 : sp.directions_numeric.set (subIdx sp i)
            (dir_to_numeric (newDir sp i s fourLabels)) =
          (sp.directions.set (subIdx sp i)
            (newDir sp i s fourLabels)).map dir_to_numeric := by
        rw [List.map_set, ← hmap]
      exact ⟨hmem2, hmap2, codes_of_labels hmap2 hmem2⟩
    · intro v hv
      have hv2 : (⟨addDir a fourLabels,
          sp.directions ++ [addDir a fourLabels],
          sp.directions_numeric ++ [dir_to_numeric (addDir a fourLabels)]⟩ :
            AdditionVariant) = v := by
        simpa using hv
      rw [← hv2]
      have hmem2 : ∀ d ∈ sp.directions ++ [addDir a fourLabels],
          d ∈ fourLabels := by
        intro d hd
        rcases List.mem_append.mp hd with hd2 | hd2
        · exact hmem d hd2
        · rw [List.mem_singleton] at hd2
          exact hd2 ▸ hadd_mem
      have hmap2 : sp.directions_numeric ++
            [dir_to_numeric (addDir a fourLabels)] =
          (sp.directions ++ [addDir a fourLabels]).map dir_to_numeric := by
        rw [List.map_append, ← hmap]
        rfl
      exact ⟨hmem2, hmap2, codes_of_labels hmap2 hmem2⟩
    · intro v hv
      dsimp only at hv
      by_cases h2 : 1 < sp.directions.length
      · rw [if_pos h2] at hv
        have hv2 : (⟨sp.directions.getLastD "", sp.directions.dropLast,
            sp.directions_numeric.dropLast⟩ : SubtractionVariant) = v := by
          simpa using hv
        rw [← hv2]
        have hmem2 : ∀ d ∈ sp.directions.dropLast, d ∈ fourLabels :=
          fun d hd => hmem d ((List.dropLast_sublist sp.directions).subset hd)
        have hmap2 : sp.directions_numeric.dropLast =
            sp.directions.dropLast.map dir_to_numeric := by
          rw [List.map_dropLast, ← hmap]
        exact ⟨hmem2, hmap2, codes_of_labels hmap2 hmem2⟩
      · rw [if_neg h2] at hv
        simp at hv

/-- C9 witness: the corridor maze. -/
theorem spec_C9_witness :
    ("right" ∈ fourLabels) ∧
    ((compute_shortest_path mazeCorridor).directions_numeric =
      (compute_shortest_path mazeCorridor).directions.map dir_to_numeric) := by
  have h := spec_C9 mazeCorridor 0 0 0
  exact ⟨h.1 "right" (by decide), h.2.1⟩

/-- C10: `build_incorrect_paths` never mutates its input: the input dict's
coordinates, directions and numeric codes after the call equal the original
values, for every input path and every random draw. -/
theorem spec_C10 (sp : PathResult) (i s a : Nat) :
    (build_incorrect_paths_st sp i s a).2 = sp := by
  by_cases h : sp.directions = []
  · rw [build_st_of_nil sp i s a fourLabels h]
  · rw [build_st_of_ne sp i s a fourLabels h]
